import Mathlib

/-!
Shallow embedding of `bank_statement_tool.py` (transaction extraction and
ledger classification). Strings are modelled as `List Char`; Python's
`str.lower` is modelled on its ASCII fragment; money amounts, which the
source stores as floats parsed from strings with exactly two decimal
digits, are modelled exactly as integer cents, so the source's
2-decimal rounding of `Deposit`/`Withdrawals` is the identity here; the
rapidfuzz `partial_ratio` similarity score is an external library and is
modelled as a parameter (an arbitrary rational-valued scoring function),
keeping the surrounding loop, strict-improvement update and threshold
exactly as in the source.
-/

/-- Strings of the embedded program. -/
abbrev Str := List Char

/-- ASCII whitespace, the characters Python's `str.strip` removes
(restricted to ASCII). -/
def isSpaceCh (c : Char) : Bool :=
  c == ' ' || c == '\t' || c == '\n' || c == '\r' || c == '\x0b' || c == '\x0c'

/-- Remove trailing whitespace. -/
def dropTrailingSp (l : Str) : Str :=
  (l.reverse.dropWhile isSpaceCh).reverse

/-- Python `str.strip()` (ASCII whitespace). -/
def pyStrip (l : Str) : Str :=
  dropTrailingSp (l.dropWhile isSpaceCh)

/-- ASCII fragment of Python `str.lower` on one character. -/
def pyLowerChar (c : Char) : Char :=
  if 65 ≤ c.toNat ∧ c.toNat ≤ 90 then Char.ofNat (c.toNat + 32) else c

/-- ASCII fragment of Python `str.lower`. -/
def pyLower (s : Str) : Str := s.map pyLowerChar

/-- Python's substring test `needle in hay`. -/
def hasSub (needle hay : Str) : Bool := decide (needle <:+: hay)

/-- Characters kept by the source's `re.sub(r'[^a-zA-Z0-9 ]', '', ...)`:
ASCII letters, digits and space. -/
def isAllowedChar (c : Char) : Bool :=
  decide ((97 ≤ c.toNat ∧ c.toNat ≤ 122) ∨ (65 ≤ c.toNat ∧ c.toNat ≤ 90) ∨
    (48 ≤ c.toNat ∧ c.toNat ≤ 57) ∨ c.toNat = 32)

/-- `clean_text` (source line 15): lowercase, drop every character that is
not an ASCII letter, digit or space, then strip. -/
def clean_text (s : Str) : Str :=
  pyStrip ((s.map pyLowerChar).filter isAllowedChar)

/-- Characters that can appear in `clean_text` output: lowercase ASCII
letters, digits and space. -/
def isCleanChar (c : Char) : Bool :=
  decide ((97 ≤ c.toNat ∧ c.toNat ≤ 122) ∨ (48 ≤ c.toNat ∧ c.toNat ≤ 57) ∨ c.toNat = 32)

/-- `drawings_keywords` of `default_mapping` (source lines 42-46). -/
def drawings_keywords : List Str :=
  [ r"swiggy".toList, r"instamart".toList, r"zomato".toList, r"amazon".toList,
    r"flipkart".toList, r"groceries".toList, r"grocery".toList,
    r"blinkit".toList, r"zepto".toList ]

/-- `cash_keywords` of `default_mapping` (source line 47). -/
def cash_keywords : List Str :=
  [ r"cash from atm".toList, r"atm withdrawal".toList, r"atm wdl".toList,
    r"cash withdrawal".toList ]

/-- `default_mapping` (source lines 40-55): cash/atm substrings first,
then the drawings keyword set, then the cash-phrase set, else empty. -/
def default_mapping (narration : Str) : Str :=
  let n := pyLower narration
  if hasSub (r"cash".toList) n || hasSub (r"atm".toList) n then r"Cash".toList
  else if drawings_keywords.any (fun kw => hasSub kw n) then r"Drawings".toList
  else if cash_keywords.any (fun kw => hasSub kw n) then r"Cash".toList
  else []

/-- Two-tier version of `default_mapping`, written from claim C8's words:
the same function without the cash-phrase `elif` branch. -/
def default_mapping_two_tier (narration : Str) : Str :=
  let n := pyLower narration
  if hasSub (r"cash".toList) n || hasSub (r"atm".toList) n then r"Cash".toList
  else if drawings_keywords.any (fun kw => hasSub kw n) then r"Drawings".toList
  else []

/-- `apply_custom_mapping` (source lines 58-63): first keyword, in map
order, whose lowercase form is a substring of the lowercase narration. -/
def apply_custom_mapping (narration : Str) (custom_map : List (Str × Str)) : Str :=
  match custom_map with
  | [] => []
  | (kw, ledger) :: rest =>
    if hasSub (pyLower kw) (pyLower narration) then ledger
    else apply_custom_mapping narration rest

/-- One iteration of `apply_trend_mapping`'s loop (source lines 70-75):
update the running best on strict improvement only. -/
def trendStep (score : Str → Str → ℚ) (nc : Str) (best : Str × ℚ) (kv : Str × Str) : Str × ℚ :=
  if best.2 < score nc (clean_text kv.1) then (kv.2, score nc (clean_text kv.1)) else best

/-- `apply_trend_mapping` (source lines 66-76), parameterized by the
external similarity score (rapidfuzz `partial_ratio` in the source):
scan the trend map keeping the strictly best score, return the best
ledger only when the best score strictly exceeds 70. -/
def apply_trend_mapping (score : Str → Str → ℚ) (narration : Str)
    (trend_map : List (Str × Str)) : Str :=
  let p := trend_map.foldl (trendStep score (clean_text narration)) ([], 0)
  if 70 < p.2 then p.1 else []

/-- The score one trend-map entry receives in `apply_trend_mapping`. -/
def trendScore (score : Str → Str → ℚ) (narration : Str) (kv : Str × Str) : ℚ :=
  score (clean_text narration) (clean_text kv.1)

/-- Maximum of two rationals, written so it evaluates on concrete
inputs. -/
def maxQ (a b : ℚ) : ℚ := if a ≤ b then b else a

/-- Orchestrator composition under "Custom + Default Mapping" mode
(source lines 207-212), per record: default mapping first when enabled,
then custom mapping only where the ledger is still empty, when custom
mapping is enabled and the custom map is non-empty. -/
def classifyCustomDefault (enableDefault enableCustom : Bool)
    (custom_map : List (Str × Str)) (narration : Str) : Str :=
  let l1 := if enableDefault then default_mapping narration else []
  if enableCustom = true ∧ custom_map ≠ [] then
    (if l1 ≠ [] then l1 else apply_custom_mapping narration custom_map)
  else l1

/-- Numeric value of an ASCII digit. -/
def digitVal (c : Char) : Nat := c.toNat - 48

/-- Decimal value of a digit string. -/
def natOfDigits (l : Str) : Nat := l.foldl (fun a c => a * 10 + digitVal c) 0

/-- Exact cents denoted by a matched amount string such as `1,234.56`:
the digits read in order (commas and the dot skipped). Faithful to
`float(balance_amt.replace(",", ""))` because the matched amount always
has exactly two digits after the dot. -/
def centsOf (l : Str) : Nat :=
  l.foldl (fun a c => if c.isDigit then a * 10 + digitVal c else a) 0

/-- The leading date token group of `re.match(r'^(\d{2}-\d{2}-\d{2,4})', line)`:
two digits, dash, two digits, dash, then greedily two to four digits. -/
def matchDateToken (l : Str) : Option Str :=
  match l with
  | a :: b :: c :: d :: e :: f :: rest =>
    if a.isDigit ∧ b.isDigit ∧ c = '-' ∧ d.isDigit ∧ e.isDigit ∧ f = '-' then
      let ys := (rest.takeWhile Char.isDigit).take 4
      if 2 ≤ ys.length then some (a :: b :: c :: d :: e :: f :: ys) else none
    else none
  | _ => none

/-- Day count of a month in the Gregorian calendar, as Python's
`datetime` validates it. -/
def daysInMonth (y m : Nat) : Nat :=
  if m = 2 then (if y % 4 = 0 ∧ (y % 100 ≠ 0 ∨ y % 400 = 0) then 29 else 28)
  else if m = 4 ∨ m = 6 ∨ m = 9 ∨ m = 11 then 30 else 31

/-- Zero-padded two-digit decimal rendering (strftime `%d` / `%m`). -/
def padNat2 (n : Nat) : Str :=
  if n < 10 then '0' :: Nat.toDigits 10 n else Nat.toDigits 10 n

/-- `datetime.strptime` on the matched date token followed by
`strftime("%d-%m-%Y")` (source lines 85-87): two-digit years resolve via
the POSIX 69/68 pivot, a three-digit year fails `%Y` (which requires
four digits), day/month are validated textually (`00` never matches
`%d`/`%m`) and against the calendar; year 0 is below `datetime.MINYEAR`. -/
def formatDate (ds : Str) : Option Str :=
  match ds with
  | d1 :: d2 :: _c :: m1 :: m2 :: _f :: ys =>
    let day := natOfDigits [d1, d2]
    let mon := natOfDigits [m1, m2]
    let year? : Option Nat :=
      if ys.length = 2 then
        let yy := natOfDigits ys
        some (if yy ≤ 68 then 2000 + yy else 1900 + yy)
      else if ys.length = 4 then
        let y := natOfDigits ys
        if y = 0 then none else some y
      else none
    match year? with
    | none => none
    | some y =>
      if 1 ≤ day ∧ day ≤ 31 ∧ 1 ≤ mon ∧ mon ≤ 12 ∧ day ≤ daysInMonth y mon then
        some (padNat2 day ++ '-' :: padNat2 mon ++ '-' :: Nat.toDigits 10 y)
      else none
  | _ => none

/-- Tail of the amount grammar after its first digit: `[\d,]*\.\d{2}`
anchored at the end of the scanned suffix. -/
def balTail : Str → Bool
  | '.' :: e1 :: e2 :: [] => e1.isDigit && e2.isDigit
  | c :: rest => (c.isDigit || c == ',') && balTail rest
  | [] => false

/-- The amount grammar `\d[\d,]*\.\d{2}` matched against a whole string. -/
def matchBalCore : Str → Bool
  | c :: rest => c.isDigit && balTail rest
  | [] => false

/-- Split an optional trailing `Cr`/`Dr` polarity suffix (regex group 2)
from a candidate balance suffix. -/
def splitPol (cs : Str) : Str × Option Str :=
  match cs.reverse with
  | 'r' :: 'C' :: rest => (rest.reverse, some (r"Cr".toList))
  | 'r' :: 'D' :: rest => (rest.reverse, some (r"Dr".toList))
  | _ => (cs, none)

/-- Whether a whole suffix matches `(\d[\d,]*\.\d{2})(Cr|Dr)?$`,
returning regex groups 1 and 2. -/
def matchBal (cs : Str) : Option (Str × Option Str) :=
  if matchBalCore (splitPol cs).1 then some (splitPol cs) else none

/-- `re.search(r'(\d[\d,]*\.\d{2})(Cr|Dr)?$', rest)`: the leftmost start
position whose suffix matches to the end of the string; returns the text
before the match, group 1 and group 2. -/
def balanceSearch : Str → Option (Str × Str × Option Str)
  | [] => none
  | c :: rest =>
    match matchBal (c :: rest) with
    | some (amt, pol) => some ([], amt, pol)
    | none => (balanceSearch rest).map (fun r => (c :: r.1, r.2.1, r.2.2))

/-- One parsed transaction, with the source's output fields `Date`,
`Particulars`, `Deposit`, `Withdrawals`, `Closing Balance`; money in
exact cents. -/
structure TransactionRecord where
  date : Str
  particulars : Str
  deposit : Int
  withdrawals : Int
  closing_balance : Str
deriving DecidableEq, Repr

/-- Signed cents denoted by a stored `Closing Balance` string: the
amount's cents, negative under a `Dr` suffix. -/
def closingVal (cs : Str) : Int :=
  match cs.reverse with
  | c1 :: c2 :: rest =>
    if c1 = 'r' ∧ c2 = 'D' then -(centsOf rest.reverse : Int)
    else if c1 = 'r' ∧ c2 = 'C' then (centsOf rest.reverse : Int)
    else (centsOf cs : Int)
  | _ => (centsOf cs : Int)

/-- Deposit of source lines 101-105: the positive part of the balance
difference, zero when there is no previous balance. -/
def depOf (B : Int) : Option Int → Int
  | some pb => if 0 < B - pb then B - pb else 0
  | none => 0

/-- Withdrawal of source lines 101-107: the negated negative part of the
balance difference, zero when there is no previous balance. -/
def wdOf (B : Int) : Option Int → Int
  | some pb => if B - pb < 0 then -(B - pb) else 0
  | none => 0

/-- `parse_transaction_line` (source lines 79-117): match and validate
the leading date, search the trailing balance figure in the stripped
remainder, default the polarity to `Cr`, derive deposit/withdrawal from
the signed difference with the previous balance (both zero when there is
none), and return the record with the new running balance. The source's
2-decimal rounding of deposit and withdrawal is the identity on exact
cents. -/
def parse_transaction_line (line : Str) (prev_balance : Option Int) :
    Option TransactionRecord × Option Int :=
  match matchDateToken line with
  | none => (none, prev_balance)
  | some ds =>
    match formatDate ds with
    | none => (none, prev_balance)
    | some date =>
      let rest := pyStrip (line.drop ds.length)
      match balanceSearch rest with
      | none => (none, prev_balance)
      | some (pre, amt, pol) =>
        let ty := pol.getD (r"Cr".toList)
        let mag : Int := (centsOf amt : Int)
        let bval : Int := if ty = r"Cr".toList then mag else -mag
        (some { date := date, particulars := pyStrip pre,
                deposit := depOf bval prev_balance,
                withdrawals := wdOf bval prev_balance,
                closing_balance := amt ++ ty }, some bval)

/-- The document walker's mutable state (source lines 121-123):
accumulated records, running previous balance, narration continuation
buffer. -/
structure WalkState where
  entries : List TransactionRecord
  prev : Option Int
  buffer : Str
deriving DecidableEq, Repr

/-- `entries[-1]["Particulars"] += t` on a non-empty list; identity on
the empty list. -/
def appendToLast : List TransactionRecord → Str → List TransactionRecord
  | [], _ => []
  | [r], t => [{ r with particulars := r.particulars ++ t }]
  | r :: rs, t => r :: appendToLast rs t

/-- The buffer flush of source lines 140-142 and 150-151: when both the
buffer and the entry list are non-empty, append a space and the stripped
buffer to the last record's particulars and clear the buffer. -/
def flushIfNeeded (st : WalkState) : WalkState :=
  if st.buffer ≠ [] ∧ st.entries ≠ [] then
    { entries := appendToLast st.entries (' ' :: pyStrip st.buffer),
      prev := st.prev, buffer := [] }
  else st

/-- Separator noise `re.match(r'^[\.\-_=]{5,}$', line)`: five or more
characters, each one of `.`, `-`, `_`, `=`. -/
def isNoiseSep (cs : Str) : Bool :=
  decide (5 ≤ cs.length) && cs.all (fun c => c == '.' || c == '-' || c == '_' || c == '=')

/-- The walker's noise filter (source lines 130-136), applied to the
stripped line: blank, or case-insensitively containing `account`,
`page` or `total`, or a separator line. -/
def isNoise (cs : Str) : Bool :=
  cs.isEmpty || hasSub (r"account".toList) (pyLower cs) ||
    hasSub (r"page".toList) (pyLower cs) || hasSub (r"total".toList) (pyLower cs) ||
    isNoiseSep cs

/-- One line of the walker loop (source lines 128-148): strip, drop
noise, on a header-shaped line flush the buffer onto the previous record
and run the parser, otherwise append the line to the buffer. -/
def processLine (st : WalkState) (raw : Str) : WalkState :=
  let line := pyStrip raw
  if isNoise line then st
  else if (matchDateToken line).isSome then
    let st1 := flushIfNeeded st
    let pr := parse_transaction_line line st1.prev
    match pr.1 with
    | some r => { entries := st1.entries ++ [r], prev := pr.2, buffer := st1.buffer }
    | none => { entries := st1.entries, prev := pr.2, buffer := st1.buffer }
  else { entries := st.entries, prev := st.prev, buffer := st.buffer ++ ' ' :: pyStrip line }

/-- `extract_transactions` (source lines 120-153) over a document given
as pages of already-split text lines: walk every line in order, then
flush any remaining buffered text onto the last record. -/
def extract_transactions (pages : List (List Str)) : List TransactionRecord :=
  let st := pages.foldl (fun s lines => lines.foldl processLine s)
    { entries := [], prev := none, buffer := [] }
  (flushIfNeeded st).entries

/-- Projection of a record to the fields never touched by buffer
flushing: deposit, withdrawal, closing balance. -/
def shape (r : TransactionRecord) : Int × Int × Str :=
  (r.deposit, r.withdrawals, r.closing_balance)

/-- Adjacent records satisfy the balance-delta equation. -/
def goodChain (es : List TransactionRecord) : Prop :=
  ∀ i a b, es[i]? = some a → es[i + 1]? = some b →
    b.deposit - b.withdrawals = closingVal b.closing_balance - closingVal a.closing_balance

/-- Every record has non-negative deposit and withdrawal, at most one of
them non-zero. -/
def goodRecords (es : List TransactionRecord) : Prop :=
  ∀ r ∈ es, 0 ≤ r.deposit ∧ 0 ≤ r.withdrawals ∧ (r.deposit = 0 ∨ r.withdrawals = 0)

/-- The first record has both deposit and withdrawal zero. -/
def headZero (es : List TransactionRecord) : Prop :=
  ∀ r, es.head? = some r → r.deposit = 0 ∧ r.withdrawals = 0

/-- The running balance is `none` exactly before any record exists, and
otherwise equals the signed value of the last record's closing balance. -/
def lastLink (es : List TransactionRecord) : Option Int → Prop
  | none => es = []
  | some b => ∃ l, es.getLast? = some l ∧ closingVal l.closing_balance = b

/-- Walker invariant carried through the line loop. -/
def walkInv (st : WalkState) : Prop :=
  goodChain st.entries ∧ goodRecords st.entries ∧ headZero st.entries ∧
    lastLink st.entries st.prev

/-- Two-page-free concrete document: a stray line before the first header. -/
def pagesJunk : List (List Str) :=
  [[ r"JUNK".toList, r"01-01-24 PAY 100.00Cr".toList ]]

/-- Concrete document with two equal consecutive balances. -/
def pagesEq : List (List Str) :=
  [[ r"01-01-24 A 100.00Cr".toList, r"02-01-24 B 100.00Cr".toList ]]

/-- Concrete document with a strictly increasing balance. -/
def pagesAB : List (List Str) :=
  [[ r"01-01-24 A 100.00Cr".toList, r"02-01-24 B 250.50Cr".toList ]]

/-- Concrete header line with no polarity suffix on the balance. -/
def hdrNoPol : Str := r"01-01-24 PAY 100.00".toList

/-- Concrete header line with an explicit `Dr` suffix. -/
def hdrDr : Str := r"01-01-24 PAY 100.00Dr".toList

/-- Concrete line matching the header date shape but with no trailing
balance figure, so full parsing fails. -/
def hdrBad : Str := r"31-12-99".toList

/-- Concrete noise line (contains `total`, case-insensitively). -/
def noiseLine : Str := r"STATEMENT TOTAL 5".toList

/-- The walker's initial state. -/
def stEmpty : WalkState := { entries := [], prev := none, buffer := [] }

/-- The record parsed from `01-01-24 PAY 100.00Cr` with no previous balance. -/
def recPay : TransactionRecord :=
  { date := r"01-01-2024".toList, particulars := r"PAY".toList,
    deposit := 0, withdrawals := 0, closing_balance := r"100.00Cr".toList }

/-- A walker state holding one record and a pending continuation buffer. -/
def stOne : WalkState :=
  { entries := [recPay], prev := some 10000, buffer := r" ref 42".toList }

/-- Concrete scoring function for trend-mapping witnesses: 80 for an
eight-character cleaned key, 0 otherwise. -/
def score0 : Str → Str → ℚ := fun _ k => if k.length = 8 then 80 else 0

/-- Concrete narration for trend-mapping witnesses. -/
def narr0 : Str := r"x".toList

/-- Concrete trend map whose two keys tie at score 80 under `score0`. -/
def tm0 : List (Str × Str) :=
  [(r"abcdefgh".toList, r"A".toList), (r"ijklmnop".toList, r"B".toList)]

/-- Concrete custom map for classification witnesses. -/
def cmap0 : List (Str × Str) := [(r"rent".toList, r"Rent".toList)]

/-- Concrete narration hitting the default mapping's cash tier. -/
def narrAtm : Str := r"ATM WDL 2000".toList

/-- Concrete narration hitting no default mapping tier. -/
def narrRent : Str := r"RENT PAID".toList

/-- First record extracted from `pagesAB` (and from `pagesEq`). -/
def recA : TransactionRecord :=
  { date := r"01-01-2024".toList, particulars := r"A".toList,
    deposit := 0, withdrawals := 0, closing_balance := r"100.00Cr".toList }

/-- Second record extracted from `pagesAB`. -/
def recB : TransactionRecord :=
  { date := r"02-01-2024".toList, particulars := r"B".toList,
    deposit := 15050, withdrawals := 0, closing_balance := r"250.50Cr".toList }

/-- Second record extracted from `pagesEq` (zero balance delta). -/
def recB0 : TransactionRecord :=
  { date := r"02-01-2024".toList, particulars := r"B".toList,
    deposit := 0, withdrawals := 0, closing_balance := r"100.00Cr".toList }

/-- The concrete header line used in the pre-header continuation claim. -/
def hdrPay : Str := r"01-01-24 PAY 100.00Cr".toList

/-- Concrete pre-header junk line for witnesses. -/
def junkLine : Str := r"JUNK".toList

/-- The continuation buffer still carries the pre-header text `J` at its
front: one leading space, then `J`, then further buffered text, the
whole `J`-headed part being strip-fixed (so a later strip cannot cut
into it). -/
def bufHolds (J : Str) (st : WalkState) : Prop :=
  ∃ t, st.buffer = ' ' :: (J ++ t) ∧ pyStrip (J ++ t) = J ++ t

/-- Walker invariant tracking a pre-header continuation text `J`: before
any record exists the buffer holds `J`; once exactly one record exists
the buffer still holds `J` (the flush could not fire before the first
record was appended); and from the first flush on, `J` sits inside the
first record's particulars for good. -/
def preheaderInv (J : Str) (st : WalkState) : Prop :=
  (st.entries = [] ∧ bufHolds J st) ∨
  ((∃ r0, st.entries = [r0]) ∧ bufHolds J st) ∨
  (∃ r0 rs, st.entries = r0 :: rs ∧ hasSub J r0.particulars = true)

-- THEOREMS

/-- `splitPol` decomposes its input: the amount part followed by the
polarity suffix it split off, which is `Cr`, `Dr` or absent. -/
theorem splitPol_decomp (cs amt : Str) (pol : Option Str)
    (h : splitPol cs = (amt, pol)) :
    cs = amt ++ pol.getD [] ∧
      (pol = some (r"Cr".toList) ∨ pol = some (r"Dr".toList) ∨ pol = none) := by
  unfold splitPol at h
  split at h
  next rest heq =>
    obtain ⟨h1, h2⟩ := Prod.mk.injEq .. ▸ h
    subst h1; subst h2
    refine ⟨?_, Or.inl rfl⟩
    have hcs := congrArg List.reverse heq
    simp only [List.reverse_reverse] at hcs
    simp [hcs, List.reverse_cons, List.append_assoc]
  next rest heq =>
    obtain ⟨h1, h2⟩ := Prod.mk.injEq .. ▸ h
    subst h1; subst h2
    refine ⟨?_, Or.inr (Or.inl rfl)⟩
    have hcs := congrArg List.reverse heq
    simp only [List.reverse_reverse] at hcs
    simp [hcs, List.reverse_cons, List.append_assoc]
  next =>
    obtain ⟨h1, h2⟩ := Prod.mk.injEq .. ▸ h
    subst h1; subst h2
    simp

/-- `matchBal` decomposes its input the same way. -/
theorem matchBal_decomp (cs amt : Str) (pol : Option Str)
    (h : matchBal cs = some (amt, pol)) :
    cs = amt ++ pol.getD [] ∧
      (pol = some (r"Cr".toList) ∨ pol = some (r"Dr".toList) ∨ pol = none) := by
  unfold matchBal at h
  split at h
  · exact splitPol_decomp cs amt pol (Option.some.inj h)
  · exact absurd h (by simp)

/-- `balanceSearch` splits its input into the text before the match, the
amount, and the optional polarity suffix. -/
theorem balanceSearch_decomp : ∀ (cs pre amt : Str) (pol : Option Str),
    balanceSearch cs = some (pre, amt, pol) →
    cs = pre ++ (amt ++ pol.getD []) ∧
      (pol = some (r"Cr".toList) ∨ pol = some (r"Dr".toList) ∨ pol = none) := by
  intro cs
  induction cs with
  | nil => intro pre amt pol h; simp [balanceSearch] at h
  | cons c rest ih =>
    intro pre amt pol h
    unfold balanceSearch at h
    cases hm : matchBal (c :: rest) with
    | some q =>
      rw [hm] at h
      obtain ⟨amt', pol'⟩ := q
      obtain ⟨h1, h2, h3⟩ := Prod.mk.injEq .. ▸ (Prod.mk.injEq .. ▸ Option.some.inj h)
      subst h1; subst h2; subst h3
      have := matchBal_decomp _ _ _ hm
      simpa using this
    | none =>
      rw [hm] at h
      simp only [Option.map_eq_some'] at h
      obtain ⟨⟨p2, a2, po2⟩, hrec, heq⟩ := h
      obtain ⟨h1, h2, h3⟩ := Prod.mk.injEq .. ▸ (Prod.mk.injEq .. ▸ heq)
      subst h1; subst h2; subst h3
      obtain ⟨hsplit, hshape⟩ := ih p2 a2 po2 hrec
      exact ⟨by simp [hsplit], hshape⟩

/-- Claim C2 counterexample: the header line `01-01-24 PAY 100.00`
carries no polarity letter, yet the produced record's Closing Balance is
`100.00Cr`, not the input's amount string `100.00`. -/
theorem closing_balance_default_cr_cex :
    (parse_transaction_line hdrNoPol none).1.map (fun r => r.closing_balance) =
      some (r"100.00Cr".toList) ∧ (r"100.00Cr".toList : Str) ≠ r"100.00".toList := by
  exact ⟨by decide, by decide⟩

/-- Claim C2 (amended): for every line on which `parse_transaction_line`
succeeds, the stripped remainder after the date token splits as
narration text, the amount string, and the polarity suffix actually
present in the input; the record's Closing Balance is the amount string
followed by the input polarity when one is present, and by a defaulted
`Cr` when the input has none. -/
theorem closing_balance_roundtrip_amended (line : Str) (prev : Option Int)
    (r : TransactionRecord) (p' : Option Int)
    (h : parse_transaction_line line prev = (some r, p')) :
    ∃ ds pre amt pol, matchDateToken line = some ds ∧
      pyStrip (line.drop ds.length) = pre ++ (amt ++ pol.getD []) ∧
      r.closing_balance = amt ++ pol.getD (r"Cr".toList) ∧
      (pol = some (r"Cr".toList) ∨ pol = some (r"Dr".toList) ∨ pol = none) := by
  unfold parse_transaction_line at h
  cases hd : matchDateToken line with
  | none => rw [hd] at h; simp at h
  | some ds =>
    rw [hd] at h; dsimp only at h
    cases hf : formatDate ds with
    | none => rw [hf] at h; simp at h
    | some date =>
      rw [hf] at h; dsimp only at h
      cases hb : balanceSearch (pyStrip (line.drop ds.length)) with
      | none => rw [hb] at h; simp at h
      | some t =>
        obtain ⟨pre, amt, pol⟩ := t
        rw [hb] at h; dsimp only at h
        obtain ⟨h1, _⟩ := Prod.mk.injEq .. ▸ h
        have hr := Option.some.inj h1
        obtain ⟨hsplit, hshape⟩ := balanceSearch_decomp _ _ _ _ hb
        exact ⟨ds, pre, amt, pol, rfl, hsplit, by rw [← hr], hshape⟩

/-- Dropping a satisfied run twice is the same as dropping it once. -/
theorem dropWhile_idem (p : Char → Bool) (l : Str) :
    List.dropWhile p (List.dropWhile p l) = List.dropWhile p l := by
  induction l with
  | nil => simp
  | cons a t ih =>
    by_cases h : p a
    · simp [List.dropWhile_cons, h, ih]
    · simp [List.dropWhile_cons, h]

/-- A list whose head does not satisfy `p` keeps that property on every
list it begins with. -/
theorem dropWhile_eq_self_mono (p : Char → Bool) (l t : Str)
    (hl : List.dropWhile p l = l) (ht : t <+: l) : List.dropWhile p t = t := by
  cases t with
  | nil => simp
  | cons a t' =>
    have ha : p a = false := by
      by_contra hc
      have hpa : p a = true := by simpa using hc
      obtain ⟨s, hs⟩ := ht
      rw [← hs, List.cons_append, List.dropWhile_cons, if_pos hpa] at hl
      have hlen := congrArg List.length hl
      rw [List.length_cons] at hlen
      have hle := (List.dropWhile_sublist (l := t' ++ s) p).length_le
      omega
    rw [List.dropWhile_cons, if_neg (by simp [ha])]

/-- Trailing-space removal is idempotent. -/
theorem dropTrailingSp_idem (l : Str) :
    dropTrailingSp (dropTrailingSp l) = dropTrailingSp l := by
  unfold dropTrailingSp
  rw [List.reverse_reverse, dropWhile_idem]

/-- `pyStrip` is idempotent. -/
theorem pyStrip_idem (l : Str) : pyStrip (pyStrip l) = pyStrip l := by
  unfold pyStrip
  have h1 : List.dropWhile isSpaceCh (List.dropWhile isSpaceCh l) =
      List.dropWhile isSpaceCh l := dropWhile_idem _ _
  have h2 : dropTrailingSp (List.dropWhile isSpaceCh l) <+: List.dropWhile isSpaceCh l := by
    unfold dropTrailingSp
    have hs := List.dropWhile_suffix (l := (List.dropWhile isSpaceCh l).reverse) isSpaceCh
    have hp := List.IsSuffix.reverse hs
    simpa using hp
  rw [dropWhile_eq_self_mono _ _ _ h1 h2, dropTrailingSp_idem]

/-- Stripping absorbs one prepended space. -/
theorem pyStrip_cons_space (l : Str) : pyStrip (' ' :: l) = pyStrip l := by
  unfold pyStrip
  rw [List.dropWhile_cons, if_pos (by decide)]

/-- Witness for the amended claim C2 at the concrete line
`01-01-24 PAY 100.00Dr`. -/
theorem closing_balance_roundtrip_amended_witness :
    ∃ ds pre amt pol, matchDateToken hdrDr = some ds ∧
      pyStrip (hdrDr.drop ds.length) = pre ++ (amt ++ pol.getD []) ∧
      ({ date := r"01-01-2024".toList, particulars := r"PAY".toList,
         deposit := 0, withdrawals := 0,
         closing_balance := r"100.00Dr".toList : TransactionRecord }).closing_balance
        = amt ++ pol.getD (r"Cr".toList) ∧
      (pol = some (r"Cr".toList) ∨ pol = some (r"Dr".toList) ∨ pol = none) :=
  closing_balance_roundtrip_amended hdrDr none _ (some (-10000)) (by decide)

/-- Claim C3 counterexample: in a document whose first line `JUNK`
comes before any transaction header, the text `JUNK` does end up in the
first record's Particulars (the buffer is flushed onto the first record
at end of document), so pre-header lines are not silently dropped. -/
theorem preheader_dropped_cex :
    (extract_transactions pagesJunk).map (fun r => r.particulars) =
      [ r"PAY JUNK".toList ] ∧
    hasSub (r"JUNK".toList) (r"PAY JUNK".toList) = true :=
  ⟨by decide, by decide⟩

/-- Claim C4 counterexample: two consecutive headers with equal closing
balances produce a second (non-first) record with deposit and
withdrawal both zero. -/
theorem both_zero_nonfirst_cex :
    (extract_transactions pagesEq).length = 2 ∧
    (extract_transactions pagesEq)[1]?.map (fun r => (r.deposit, r.withdrawals)) =
      some (0, 0) :=
  ⟨by decide, by decide⟩

/-- Claim C7 counterexample: the line `31-12-99` matches the header date
shape, is not noise, yet is skipped (the walker state is unchanged: no
record produced, nothing buffered) because full parsing finds no
trailing balance — so "skipped iff noise" fails. -/
theorem skipped_nonnoise_header_cex :
    processLine stEmpty hdrBad = stEmpty ∧ isNoise (pyStrip hdrBad) = false ∧
      (matchDateToken (pyStrip hdrBad)).isSome = true :=
  ⟨by decide, by decide, by decide⟩

/-- Claim C7 (amended): a noise line is always skipped (state unchanged,
no record, nothing buffered); a non-noise line that does not match the
header date shape is always buffered as continuation; header-shaped
lines are excluded from the "only if" direction, since one that fails
full parsing is also skipped without being noise. -/
theorem noise_skip_amended (st : WalkState) (raw : Str) :
    (isNoise (pyStrip raw) = true → processLine st raw = st) ∧
    (isNoise (pyStrip raw) = false → matchDateToken (pyStrip raw) = none →
      processLine st raw =
        { entries := st.entries, prev := st.prev,
          buffer := st.buffer ++ ' ' :: pyStrip raw }) := by
  constructor
  · intro h
    simp [processLine, h]
  · intro h1 h2
    simp [processLine, h1, h2, pyStrip_idem]

/-- Witness for the amended claim C7: a concrete line containing
`total` is skipped with the walker state unchanged. -/
theorem noise_skip_amended_witness :
    processLine stEmpty noiseLine = stEmpty :=
  (noise_skip_amended stEmpty noiseLine).1 (by decide)

/-- Claim C5: under "Custom + Default Mapping" with both mappings
enabled, a non-empty default-mapping result always wins, and the custom
mapping decides exactly the records the default step left empty. -/
theorem custom_default_precedence (narr : Str) (cmap : List (Str × Str)) :
    (default_mapping narr ≠ [] →
      classifyCustomDefault true true cmap narr = default_mapping narr) ∧
    (default_mapping narr = [] → cmap ≠ [] →
      classifyCustomDefault true true cmap narr = apply_custom_mapping narr cmap) := by
  constructor
  · intro h
    by_cases hc : cmap = []
    · simp [classifyCustomDefault, hc]
    · simp [classifyCustomDefault, hc, h]
  · intro h hc
    simp [classifyCustomDefault, h, hc]

/-- Witness for claim C5 at a narration the default mapping classifies
as Cash. -/
theorem custom_default_precedence_witness :
    classifyCustomDefault true true cmap0 narrAtm = default_mapping narrAtm :=
  (custom_default_precedence narrAtm cmap0).1 (by decide)

/-- Substring containment is transitive. -/
theorem hasSub_trans (a b c : Str) (h1 : hasSub a b = true) (h2 : hasSub b c = true) :
    hasSub a c = true := by
  unfold hasSub at h1 h2 ⊢
  exact decide_eq_true ((of_decide_eq_true h1).trans (of_decide_eq_true h2))

/-- Claim C8: the cash-phrase `elif` tier of `default_mapping` is
unreachable — every cash phrase contains `cash` or `atm`, so the first
branch already returned — hence `default_mapping` coincides with the
two-tier version and only ever returns `Cash`, `Drawings` or the empty
string. -/
theorem default_mapping_two_tier_equiv (narr : Str) :
    default_mapping narr = default_mapping_two_tier narr ∧
    (default_mapping narr = r"Cash".toList ∨ default_mapping narr = r"Drawings".toList ∨
      default_mapping narr = []) ∧
    cash_keywords.all
      (fun kw => hasSub (r"cash".toList) kw || hasSub (r"atm".toList) kw) = true := by
  have hmain : default_mapping narr = default_mapping_two_tier narr := by
    unfold default_mapping default_mapping_two_tier
    by_cases h1 : (hasSub (r"cash".toList) (pyLower narr) ||
        hasSub (r"atm".toList) (pyLower narr)) = true
    · simp only [h1, if_true]
    · rw [Bool.not_eq_true, Bool.or_eq_false_iff] at h1
      obtain ⟨hcash, hatm⟩ := h1
      by_cases h2 : drawings_keywords.any (fun kw => hasSub kw (pyLower narr)) = true
      · simp [hcash, hatm, h2]
      · rw [Bool.not_eq_true] at h2
        have h3 : cash_keywords.any (fun kw => hasSub kw (pyLower narr)) = false := by
          rw [List.any_eq_false]
          intro kw hkw
          simp only [cash_keywords, List.mem_cons, List.not_mem_nil, or_false] at hkw
          rcases hkw with rfl | rfl | rfl | rfl
          · intro hc
            have := hasSub_trans _ _ _ (show hasSub (r"cash".toList) (r"cash from atm".toList) = true by decide) hc
            rw [hcash] at this; exact Bool.false_ne_true this
          · intro hc
            have := hasSub_trans _ _ _ (show hasSub (r"atm".toList) (r"atm withdrawal".toList) = true by decide) hc
            rw [hatm] at this; exact Bool.false_ne_true this
          · intro hc
            have := hasSub_trans _ _ _ (show hasSub (r"atm".toList) (r"atm wdl".toList) = true by decide) hc
            rw [hatm] at this; exact Bool.false_ne_true this
          · intro hc
            have := hasSub_trans _ _ _ (show hasSub (r"cash".toList) (r"cash withdrawal".toList) = true by decide) hc
            rw [hcash] at this; exact Bool.false_ne_true this
        simp [hcash, hatm, h2, h3]
  refine ⟨hmain, ?_, by decide⟩
  rw [hmain]
  unfold default_mapping_two_tier
  by_cases h1 : (hasSub (r"cash".toList) (pyLower narr) ||
      hasSub (r"atm".toList) (pyLower narr)) = true
  · exact Or.inl (by rw [if_pos h1])
  · rw [Bool.not_eq_true] at h1
    have hn1 : ¬((hasSub (r"cash".toList) (pyLower narr) ||
        hasSub (r"atm".toList) (pyLower narr)) = true) := by
      rw [h1]; exact Bool.false_ne_true
    rw [if_neg hn1]
    by_cases h2 : drawings_keywords.any (fun kw => hasSub kw (pyLower narr)) = true
    · exact Or.inr (Or.inl (by rw [if_pos h2]))
    · rw [Bool.not_eq_true] at h2
      have hn2 : ¬(drawings_keywords.any (fun kw => hasSub kw (pyLower narr)) = true) := by
        rw [h2]; exact Bool.false_ne_true
      rw [if_neg hn2]
      exact Or.inr (Or.inr rfl)

/-- A valid small code point survives the `Char.ofNat` round trip. -/
theorem char_toNat_ofNat_valid (n : Nat) (h : n < 55296) : (Char.ofNat n).toNat = n := by
  unfold Char.ofNat
  rw [dif_pos (show n.isValidChar from Or.inl h)]
  simp [Char.ofNatAux, Char.toNat, UInt32.toNat]

/-- Code point of the ASCII-lowered character. -/
theorem pyLowerChar_toNat (c : Char) :
    (pyLowerChar c).toNat =
      if 65 ≤ c.toNat ∧ c.toNat ≤ 90 then c.toNat + 32 else c.toNat := by
  unfold pyLowerChar
  split
  · next h => exact char_toNat_ofNat_valid _ (by omega)
  · rfl

/-- A lowered character that the filter keeps is lowercase, a digit or a
space — never an uppercase letter. -/
theorem isCleanChar_of_allowed_lower (c : Char)
    (h : isAllowedChar (pyLowerChar c) = true) : isCleanChar (pyLowerChar c) = true := by
  have ht := pyLowerChar_toNat c
  unfold isAllowedChar at h
  unfold isCleanChar
  have hp := of_decide_eq_true h
  apply decide_eq_true
  by_cases hu : 65 ≤ c.toNat ∧ c.toNat ≤ 90
  · rw [if_pos hu] at ht
    left; omega
  · rw [if_neg hu] at ht
    rcases hp with h1 | h2 | h3 | h4
    · left; exact h1
    · exact absurd (by omega : 65 ≤ c.toNat ∧ c.toNat ≤ 90) hu
    · right; left; exact h3
    · right; right; exact h4

/-- `pyStrip` is a sublist of its input. -/
theorem pyStrip_sublist (l : Str) : (pyStrip l).Sublist l := by
  unfold pyStrip dropTrailingSp
  have h1 : (List.dropWhile isSpaceCh l).Sublist l := List.dropWhile_sublist _
  have h2 := (List.dropWhile_sublist (l := (List.dropWhile isSpaceCh l).reverse)
    isSpaceCh).reverse
  rw [List.reverse_reverse] at h2
  exact h2.trans h1

/-- Every character of `clean_text` output is a lowercase ASCII letter,
a digit or a space. -/
theorem clean_text_all_clean (s : Str) : (clean_text s).all isCleanChar = true := by
  unfold clean_text
  apply List.all_eq_true.mpr
  intro c hc
  have hc' : c ∈ (s.map pyLowerChar).filter isAllowedChar := (pyStrip_sublist _).subset hc
  obtain ⟨hmem, hall⟩ := List.mem_filter.mp hc'
  obtain ⟨a, _, rfl⟩ := List.mem_map.mp hmem
  exact isCleanChar_of_allowed_lower a hall

/-- Claim C10: `clean_text` is idempotent, its output uses only
lowercase ASCII letters, digits and spaces, and carries no leading or
trailing whitespace (stripping it again changes nothing). -/
theorem clean_text_idem_alphabet (s : Str) :
    clean_text (clean_text s) = clean_text s ∧
    (clean_text s).all isCleanChar = true ∧
    pyStrip (clean_text s) = clean_text s := by
  have hall := clean_text_all_clean s
  have hchars := List.all_eq_true.mp hall
  have hmap : (clean_text s).map pyLowerChar = clean_text s := by
    have hcong : ∀ c ∈ clean_text s, pyLowerChar c = id c := by
      intro c hc
      have hp := of_decide_eq_true (hchars c hc)
      unfold pyLowerChar
      rw [if_neg]
      · rfl
      · rintro ⟨hu1, hu2⟩
        unfold isCleanChar at hp
        rcases hp with h1 | h2 | h3 <;> omega
    rw [List.map_congr_left hcong, List.map_id]
  have hfil : (clean_text s).filter isAllowedChar = clean_text s := by
    apply List.filter_eq_self.mpr
    intro c hc
    have hp := of_decide_eq_true (hchars c hc)
    unfold isAllowedChar
    apply decide_eq_true
    rcases hp with h1 | h2 | h3
    · left; exact h1
    · right; right; left; exact h2
    · right; right; right; exact h3
  have hstrip : pyStrip (clean_text s) = clean_text s := by
    unfold clean_text
    exact pyStrip_idem _
  refine ⟨?_, hall, hstrip⟩
  conv_lhs => rw [clean_text]
  rw [hmap, hfil, hstrip]

/-- Flushing the buffer never changes the running previous balance. -/
theorem flushIfNeeded_prev (st : WalkState) : (flushIfNeeded st).prev = st.prev := by
  unfold flushIfNeeded
  split <;> rfl

/-- Appending text to the last record preserves the list length. -/
theorem appendToLast_length (t : Str) : ∀ (es : List TransactionRecord),
    (appendToLast es t).length = es.length := by
  intro es
  induction es with
  | nil => rfl
  | cons r rs ih =>
    cases rs with
    | nil => rfl
    | cons r2 rs2 => simp [appendToLast, ih]

/-- Flushing the buffer never changes the number of records. -/
theorem flushIfNeeded_entries_length (st : WalkState) :
    (flushIfNeeded st).entries.length = st.entries.length := by
  unfold flushIfNeeded
  split
  · simp [appendToLast_length]
  · rfl

/-- When the first component of a parse is `none`, the whole result is
`(none, prev)`: a failed parse keeps the running balance unchanged. -/
theorem parse_fst_none (line : Str) (pb : Option Int)
    (h : (parse_transaction_line line pb).1 = none) :
    parse_transaction_line line pb = (none, pb) := by
  unfold parse_transaction_line at h ⊢
  cases hd : matchDateToken line with
  | none => rfl
  | some ds =>
    rw [hd] at h
    dsimp only at h ⊢
    cases hf : formatDate ds with
    | none => rfl
    | some date =>
      rw [hf] at h
      dsimp only at h ⊢
      cases hb : balanceSearch (pyStrip (line.drop ds.length)) with
      | none => rfl
      | some t =>
        obtain ⟨pre, amt, pol⟩ := t
        rw [hb] at h
        dsimp only at h
        exact absurd h (by simp)

/-- Claim C9: a line matching the header date shape whose full parse
fails appends no record, is never buffered, and leaves the running
previous balance unchanged, while any pending continuation buffer is
still flushed onto the previous record first. -/
theorem failed_header_line_discarded (st : WalkState) (raw : Str)
    (hh : (matchDateToken (pyStrip raw)).isSome = true)
    (hn : isNoise (pyStrip raw) = false)
    (hp : (parse_transaction_line (pyStrip raw) st.prev).1 = none) :
    processLine st raw = flushIfNeeded st ∧
    (processLine st raw).entries.length = st.entries.length ∧
    (processLine st raw).prev = st.prev := by
  have hp' : parse_transaction_line (pyStrip raw) (flushIfNeeded st).prev =
      (none, (flushIfNeeded st).prev) := by
    rw [flushIfNeeded_prev]
    exact parse_fst_none _ _ hp
  have h1 : processLine st raw = flushIfNeeded st := by
    simp [processLine, hn, hh, hp']
  exact ⟨h1, by rw [h1, flushIfNeeded_entries_length],
    by rw [h1, flushIfNeeded_prev]⟩

/-- Witness for claim C9 at the line `31-12-99` with one record and a
pending buffer in the state. -/
theorem failed_header_line_discarded_witness :
    processLine stOne hdrBad = flushIfNeeded stOne ∧
    (processLine stOne hdrBad).entries.length = stOne.entries.length ∧
    (processLine stOne hdrBad).prev = stOne.prev :=
  failed_header_line_discarded stOne hdrBad (by decide) (by decide) (by decide)

/-- `maxQ` returns its second argument when that one is at least the
first. -/
theorem maxQ_eq_right {a b : ℚ} (h : a ≤ b) : maxQ a b = b := by
  unfold maxQ; rw [if_pos h]

/-- `maxQ` returns its first argument when that one is at least the
second. -/
theorem maxQ_eq_left {a b : ℚ} (h : b ≤ a) : maxQ a b = a := by
  unfold maxQ
  split
  · next h2 => exact (le_antisymm h2 h).symm
  · rfl

/-- The best score kept by the trend-mapping loop is the maximum of the
initial best and all entry scores. -/
theorem trendFold_snd (score : Str → Str → ℚ) (nc : Str) :
    ∀ (tm : List (Str × Str)) (bm : Str) (bs : ℚ),
      (tm.foldl (trendStep score nc) (bm, bs)).2 =
        (tm.map (fun kv => score nc (clean_text kv.1))).foldl maxQ bs := by
  intro tm
  induction tm with
  | nil => intro bm bs; rfl
  | cons kv rest ih =>
    intro bm bs
    by_cases hs : bs < score nc (clean_text kv.1)
    · have hstep : trendStep score nc (bm, bs) kv = (kv.2, score nc (clean_text kv.1)) := by
        unfold trendStep; rw [if_pos hs]
      rw [List.foldl_cons, hstep, ih, List.map_cons, List.foldl_cons,
        maxQ_eq_right (le_of_lt hs)]
    · have hstep : trendStep score nc (bm, bs) kv = (bm, bs) := by
        unfold trendStep; rw [if_neg hs]
      rw [List.foldl_cons, hstep, ih, List.map_cons, List.foldl_cons,
        maxQ_eq_left (not_lt.mp hs)]

/-- Either no entry strictly improved on the initial best, or the loop
returns the ledger of the first entry whose score equals the final best
score (ties broken by first-seen order). -/
theorem trendFold_find (score : Str → Str → ℚ) (nc : Str) :
    ∀ (tm : List (Str × Str)) (bm : Str) (bs : ℚ),
      tm.foldl (trendStep score nc) (bm, bs) = (bm, bs) ∨
      (bs < (tm.foldl (trendStep score nc) (bm, bs)).2 ∧
        (tm.find? (fun kv => decide (score nc (clean_text kv.1) =
            (tm.foldl (trendStep score nc) (bm, bs)).2))).map Prod.snd =
          some (tm.foldl (trendStep score nc) (bm, bs)).1) := by
  intro tm
  induction tm with
  | nil => intro bm bs; exact Or.inl rfl
  | cons kv rest ih =>
    intro bm bs
    by_cases hs : bs < score nc (clean_text kv.1)
    · have hstep : trendStep score nc (bm, bs) kv = (kv.2, score nc (clean_text kv.1)) := by
        unfold trendStep; rw [if_pos hs]
      rw [List.foldl_cons, hstep]
      rcases ih kv.2 (score nc (clean_text kv.1)) with hleft | ⟨hlt, hfind⟩
      · rw [hleft]
        refine Or.inr ⟨hs, ?_⟩
        rw [List.find?_cons_of_pos _ (by simp)]
        rfl
      · refine Or.inr ⟨lt_trans hs hlt, ?_⟩
        rw [List.find?_cons_of_neg _ (by simp; exact ne_of_lt hlt)]
        exact hfind
    · have hstep : trendStep score nc (bm, bs) kv = (bm, bs) := by
        unfold trendStep; rw [if_neg hs]
      rw [List.foldl_cons, hstep]
      rcases ih bm bs with hleft | ⟨hlt, hfind⟩
      · exact Or.inl hleft
      · refine Or.inr ⟨hlt, ?_⟩
        rw [List.find?_cons_of_neg _ (by simp; exact ne_of_lt (lt_of_le_of_lt (not_lt.mp hs) hlt))]
        exact hfind

/-- Claim C6: `apply_trend_mapping` returns the empty string whenever
the best score over all trend-map keys is at most 70 (in particular at
exactly 70), and when the best score strictly exceeds 70 (in particular
at 71) it returns the ledger of the first-seen key attaining that best
score, since the running best is updated only on strict improvement. -/
theorem trend_threshold_and_tiebreak (score : Str → Str → ℚ) (narr : Str)
    (tm : List (Str × Str)) :
    ((tm.map (trendScore score narr)).foldl maxQ 0 ≤ 70 →
      apply_trend_mapping score narr tm = []) ∧
    (70 < (tm.map (trendScore score narr)).foldl maxQ 0 →
      ∃ kv, tm.find? (fun kv2 => decide (trendScore score narr kv2 =
          (tm.map (trendScore score narr)).foldl maxQ 0)) = some kv ∧
        apply_trend_mapping score narr tm = kv.2) := by
  have hmap : tm.map (trendScore score narr) =
      tm.map (fun kv => score (clean_text narr) (clean_text kv.1)) := rfl
  have hsnd := trendFold_snd score (clean_text narr) tm [] 0
  constructor
  · intro hle
    rw [hmap] at hle
    have hng : ¬(70 < (tm.foldl (trendStep score (clean_text narr)) ([], 0)).2) := by
      rw [hsnd]; exact not_lt.mpr hle
    simp only [apply_trend_mapping]
    rw [if_neg hng]
  · intro hlt
    rw [hmap] at hlt
    rcases trendFold_find score (clean_text narr) tm [] 0 with hleft | ⟨_, hfind⟩
    · exfalso
      rw [hleft] at hsnd
      rw [← hsnd] at hlt
      exact absurd hlt (by norm_num)
    · obtain ⟨kv, hkv, hsnd2⟩ := Option.map_eq_some'.mp hfind
      refine ⟨kv, ?_, ?_⟩
      · rw [hmap, ← hsnd]
        exact hkv
      · simp only [apply_trend_mapping]
        rw [if_pos (by rw [hsnd, ← hmap]; exact hlt), ← hsnd2]

/-- Witness for claim C6 under `score0`: both keys of `tm0` tie at
score 80 > 70 and the first-seen key's ledger is returned. -/
theorem trend_threshold_and_tiebreak_witness :
    70 < (tm0.map (trendScore score0 narr0)).foldl maxQ 0 ∧
    ∃ kv, tm0.find? (fun kv2 => decide (trendScore score0 narr0 kv2 =
        (tm0.map (trendScore score0 narr0)).foldl maxQ 0)) = some kv ∧
      apply_trend_mapping score0 narr0 tm0 = kv.2 :=
  ⟨by decide, (trend_threshold_and_tiebreak score0 narr0 tm0).2 (by decide)⟩

/-- The derived deposit is never negative. -/
theorem depOf_nonneg (B : Int) (pb : Option Int) : 0 ≤ depOf B pb := by
  cases pb with
  | none => exact le_refl 0
  | some b => simp only [depOf]; split_ifs <;> omega

/-- The derived withdrawal is never negative. -/
theorem wdOf_nonneg (B : Int) (pb : Option Int) : 0 ≤ wdOf B pb := by
  cases pb with
  | none => exact le_refl 0
  | some b => simp only [wdOf]; split_ifs <;> omega

/-- At most one of the derived deposit and withdrawal is non-zero. -/
theorem depOf_or_wdOf_zero (B : Int) (pb : Option Int) :
    depOf B pb = 0 ∨ wdOf B pb = 0 := by
  cases pb with
  | none => exact Or.inl rfl
  | some b => simp only [depOf, wdOf]; split_ifs <;> omega

/-- With a previous balance, deposit minus withdrawal is exactly the
balance difference. -/
theorem depOf_sub_wdOf (B b : Int) :
    depOf B (some b) - wdOf B (some b) = B - b := by
  simp only [depOf, wdOf]; split_ifs <;> omega

/-- Rendering of the `Cr` polarity token. -/
theorem toList_Cr : (r"Cr".toList : Str) = ['C', 'r'] := rfl

/-- Rendering of the `Dr` polarity token. -/
theorem toList_Dr : (r"Dr".toList : Str) = ['D', 'r'] := rfl

/-- The signed value of an amount string with its polarity suffix
appended. -/
theorem closingVal_append_pol (amt : Str) (pol : Option Str)
    (hshape : pol = some (r"Cr".toList) ∨ pol = some (r"Dr".toList) ∨ pol = none) :
    closingVal (amt ++ pol.getD (r"Cr".toList)) =
      (if pol.getD (r"Cr".toList) = r"Cr".toList then ((centsOf amt : Nat) : Int)
        else -((centsOf amt : Nat) : Int)) := by
  rcases hshape with rfl | rfl | rfl
  · simp only [Option.getD_some]
    simp only [if_true]
    unfold closingVal
    have hrev : (amt ++ r"Cr".toList).reverse = 'r' :: 'C' :: amt.reverse := by
      rw [toList_Cr]; simp [List.reverse_append]
    rw [hrev]
    dsimp only
    rw [if_neg (by decide), if_pos (by decide), List.reverse_reverse]
  · simp only [Option.getD_some]
    rw [if_neg (by decide)]
    unfold closingVal
    have hrev : (amt ++ r"Dr".toList).reverse = 'r' :: 'D' :: amt.reverse := by
      rw [toList_Dr]; simp [List.reverse_append]
    rw [hrev]
    dsimp only
    rw [if_pos (by decide), List.reverse_reverse]
  · simp only [Option.getD_none]
    simp only [if_true]
    unfold closingVal
    have hrev : (amt ++ r"Cr".toList).reverse = 'r' :: 'C' :: amt.reverse := by
      rw [toList_Cr]; simp [List.reverse_append]
    rw [hrev]
    dsimp only
    rw [if_neg (by decide), if_pos (by decide), List.reverse_reverse]

/-- What a successful parse guarantees: non-negative amounts, at most
one non-zero side, the returned running balance is the signed value of
the stored closing balance, both sides zero without a previous balance,
and the balance-delta equation with one. -/
theorem parse_some_spec (line : Str) (pb : Option Int) (r : TransactionRecord)
    (p' : Option Int) (h : parse_transaction_line line pb = (some r, p')) :
    0 ≤ r.deposit ∧ 0 ≤ r.withdrawals ∧ (r.deposit = 0 ∨ r.withdrawals = 0) ∧
    p' = some (closingVal r.closing_balance) ∧
    (pb = none → r.deposit = 0 ∧ r.withdrawals = 0) ∧
    (∀ b, pb = some b → r.deposit - r.withdrawals =
      closingVal r.closing_balance - b) := by
  unfold parse_transaction_line at h
  cases hd : matchDateToken line with
  | none => rw [hd] at h; simp at h
  | some ds =>
    rw [hd] at h; dsimp only at h
    cases hf : formatDate ds with
    | none => rw [hf] at h; simp at h
    | some date =>
      rw [hf] at h; dsimp only at h
      cases hb : balanceSearch (pyStrip (line.drop ds.length)) with
      | none => rw [hb] at h; simp at h
      | some t =>
        obtain ⟨pre, amt, pol⟩ := t
        rw [hb] at h; dsimp only at h
        obtain ⟨h1, h2⟩ := Prod.mk.injEq .. ▸ h
        have hr := (Option.some.inj h1).symm
        obtain ⟨_, hshape⟩ := balanceSearch_decomp _ _ _ _ hb
        have hcv := closingVal_append_pol amt pol hshape
        subst hr
        refine ⟨depOf_nonneg _ _, wdOf_nonneg _ _, depOf_or_wdOf_zero _ _, ?_, ?_, ?_⟩
        · rw [← h2]
          dsimp only
          rw [hcv]
        · intro h0; subst h0; exact ⟨rfl, rfl⟩
        · intro b h0
          subst h0
          dsimp only
          rw [hcv]
          exact depOf_sub_wdOf _ b

/-- Indexing through two lists with equal shape images. -/
theorem getElem?_shape {es es2 : List TransactionRecord}
    (h : es2.map shape = es.map shape) (i : Nat) :
    es2[i]?.map shape = es[i]?.map shape := by
  rw [← List.getElem?_map, ← List.getElem?_map, h]

/-- Equal shapes mean equal deposit, withdrawal and closing balance. -/
theorem shape_fields {a b : TransactionRecord} (h : shape a = shape b) :
    a.deposit = b.deposit ∧ a.withdrawals = b.withdrawals ∧
      a.closing_balance = b.closing_balance := by
  unfold shape at h
  exact ⟨congrArg Prod.fst h, congrArg (fun t => t.2.1) h,
    congrArg (fun t => t.2.2) h⟩

/-- The balance-delta chain only depends on record shapes. -/
theorem goodChain_transfer {es es2 : List TransactionRecord}
    (h : es2.map shape = es.map shape) (hg : goodChain es) : goodChain es2 := by
  intro i a b ha hb
  have h1 := getElem?_shape h i
  have h2 := getElem?_shape h (i + 1)
  rw [ha] at h1
  rw [hb] at h2
  obtain ⟨a0, ha0, hsa⟩ := Option.map_eq_some'.mp h1.symm
  obtain ⟨b0, hb0, hsb⟩ := Option.map_eq_some'.mp h2.symm
  have heq := hg i a0 b0 ha0 hb0
  obtain ⟨_, _, hca⟩ := shape_fields hsa
  obtain ⟨hdb, hwb, hcb⟩ := shape_fields hsb
  rw [hdb, hwb, hcb, hca] at heq
  exact heq

/-- Per-record sign facts only depend on record shapes. -/
theorem goodRecords_transfer {es es2 : List TransactionRecord}
    (h : es2.map shape = es.map shape) (hg : goodRecords es) : goodRecords es2 := by
  intro r hr
  have hm : shape r ∈ es.map shape := by
    rw [← h]; exact List.mem_map_of_mem _ hr
  obtain ⟨r0, hr0, hs⟩ := List.mem_map.mp hm
  obtain ⟨h1, h2, h3⟩ := hg r0 hr0
  obtain ⟨hd, hw, _⟩ := shape_fields hs
  refine ⟨?_, ?_, ?_⟩
  · rw [← hd]; exact h1
  · rw [← hw]; exact h2
  · rw [← hd, ← hw]; exact h3

/-- The first-record fact only depends on record shapes. -/
theorem headZero_transfer {es es2 : List TransactionRecord}
    (h : es2.map shape = es.map shape) (hg : headZero es) : headZero es2 := by
  intro r hr
  have h1 : es2.head?.map shape = es.head?.map shape := by
    rw [← List.head?_map, ← List.head?_map, h]
  rw [hr] at h1
  obtain ⟨r0, hr0, hs⟩ := Option.map_eq_some'.mp h1.symm
  obtain ⟨h2, h3⟩ := hg r0 hr0
  obtain ⟨hd, hw, _⟩ := shape_fields hs
  exact ⟨by rw [← hd]; exact h2, by rw [← hw]; exact h3⟩

/-- The last-record link only depends on record shapes. -/
theorem lastLink_transfer {es es2 : List TransactionRecord}
    (h : es2.map shape = es.map shape) {pb : Option Int}
    (hg : lastLink es pb) : lastLink es2 pb := by
  cases pb with
  | none =>
    have hg2 : es = [] := hg
    show es2 = []
    have : es2.map shape = [] := by rw [h, hg2]; rfl
    exact List.map_eq_nil_iff.mp this
  | some b =>
    obtain ⟨l, hl, hv⟩ := hg
    have h1 : es2.getLast?.map shape = es.getLast?.map shape := by
      rw [← List.getLast?_map, ← List.getLast?_map, h]
    rw [hl] at h1
    obtain ⟨l2, hl2, hs⟩ := Option.map_eq_some'.mp h1
    obtain ⟨_, _, hc⟩ := shape_fields hs
    exact ⟨l2, hl2, by rw [hc]; exact hv⟩

/-- Appending text to the last record's particulars leaves all shapes
unchanged. -/
theorem appendToLast_map_shape (t : Str) : ∀ (es : List TransactionRecord),
    (appendToLast es t).map shape = es.map shape := by
  intro es
  induction es with
  | nil => rfl
  | cons r rs ih =>
    cases rs with
    | nil => rfl
    | cons r2 rs2 =>
      simp only [appendToLast, List.map_cons]
      rw [ih]
      rfl

/-- Flushing the continuation buffer preserves the walker invariant. -/
theorem flushIfNeeded_inv (st : WalkState) (h : walkInv st) :
    walkInv (flushIfNeeded st) := by
  unfold flushIfNeeded
  split
  · obtain ⟨hc, hr, hz, hl⟩ := h
    have hms := appendToLast_map_shape (' ' :: pyStrip st.buffer) st.entries
    exact ⟨goodChain_transfer hms hc, goodRecords_transfer hms hr,
      headZero_transfer hms hz, lastLink_transfer hms hl⟩
  · exact h

/-- One walker step preserves the invariant. -/
theorem processLine_inv (st : WalkState) (raw : Str) (h : walkInv st) :
    walkInv (processLine st raw) := by
  unfold processLine
  by_cases hn : isNoise (pyStrip raw) = true
  · rw [if_pos hn]; exact h
  · rw [if_neg hn]
    by_cases hh : (matchDateToken (pyStrip raw)).isSome = true
    · rw [if_pos hh]
      dsimp only
      have h1 : walkInv (flushIfNeeded st) := flushIfNeeded_inv st h
      cases hp : parse_transaction_line (pyStrip raw) (flushIfNeeded st).prev with
      | mk o p2 =>
        dsimp only
        cases o with
        | none =>
          have hpp : p2 = (flushIfNeeded st).prev := by
            have h2 := parse_fst_none (pyStrip raw) (flushIfNeeded st).prev
              (by rw [hp])
            rw [hp] at h2
            exact (Prod.mk.injEq .. ▸ h2).2
          rw [hpp]
          exact ⟨h1.1, h1.2.1, h1.2.2.1, h1.2.2.2⟩
        | some r =>
          obtain ⟨hd0, hw0, hdw0, hp2, hnone, hsome⟩ := parse_some_spec _ _ _ _ hp
          obtain ⟨hc1, hr1, hz1, hl1⟩ := h1
          refine ⟨?_, ?_, ?_, ?_⟩
          · intro i a b ha hb
            by_cases hlt : i + 1 < (flushIfNeeded st).entries.length
            · rw [List.getElem?_append, if_pos (by omega)] at ha
              rw [List.getElem?_append, if_pos hlt] at hb
              exact hc1 i a b ha hb
            · have hlen : i + 1 < (flushIfNeeded st).entries.length + 1 := by
                obtain ⟨hbound, _⟩ := List.getElem?_eq_some_iff.mp hb
                simpa [List.length_append] using hbound
              have hieq : i + 1 = (flushIfNeeded st).entries.length := by omega
              have hbr : b = r := by
                rw [hieq, List.getElem?_concat_length] at hb
                exact (Option.some.inj hb).symm
              have hesne : (flushIfNeeded st).entries ≠ [] := by
                intro h0
                rw [h0] at hieq
                exact absurd hieq (by simp)
              cases hpb : (flushIfNeeded st).prev with
              | none =>
                have h0 : (flushIfNeeded st).entries = [] := by
                  rw [hpb] at hl1; exact hl1
                exact absurd h0 hesne
              | some pb =>
                rw [hpb] at hl1
                obtain ⟨l, hl, hv⟩ := hl1
                have ha2 : (flushIfNeeded st).entries[i]? = some a := by
                  rw [List.getElem?_append, if_pos (by omega)] at ha
                  exact ha
                have hal : a = l := by
                  rw [List.getLast?_eq_getElem?] at hl
                  rw [show (flushIfNeeded st).entries.length - 1 = i by omega] at hl
                  rw [ha2] at hl
                  exact Option.some.inj hl
                rw [hbr, hal, hv]
                exact hsome pb hpb
          · intro r2 hr2
            rcases List.mem_append.mp hr2 with hmem | hmem
            · exact hr1 r2 hmem
            · have h2 : r2 = r := by simpa using hmem
              rw [h2]
              exact ⟨hd0, hw0, hdw0⟩
          · intro r2 hr2
            cases hescase : (flushIfNeeded st).entries with
            | nil =>
              rw [hescase] at hr2
              have hr2r : r2 = r := by simpa using hr2.symm
              cases hpb : (flushIfNeeded st).prev with
              | none =>
                rw [hr2r]
                exact hnone hpb
              | some pb =>
                rw [hpb] at hl1
                obtain ⟨l, hl, _⟩ := hl1
                rw [hescase] at hl
                exact absurd hl (by simp)
            | cons e es2 =>
              rw [hescase] at hr2
              have hre : e = r2 := by simpa using hr2
              have h2 := hz1 e (by rw [hescase]; rfl)
              rw [← hre]
              exact h2
          · rw [hp2]
            exact ⟨r, List.getLast?_concat _, rfl⟩
    · rw [if_neg hh]
      exact ⟨h.1, h.2.1, h.2.2.1, h.2.2.2⟩

/-- The invariant is preserved along a page's lines. -/
theorem foldl_processLine_inv (lines : List Str) : ∀ st, walkInv st →
    walkInv (lines.foldl processLine st) := by
  induction lines with
  | nil => intro st h; exact h
  | cons l ls ih => intro st h; exact ih _ (processLine_inv st l h)

/-- The invariant is preserved across all pages. -/
theorem foldl_pages_inv (pages : List (List Str)) : ∀ st, walkInv st →
    walkInv (pages.foldl (fun s lines => lines.foldl processLine s) st) := by
  induction pages with
  | nil => intro st h; exact h
  | cons p ps ih => intro st h; exact ih _ (foldl_processLine_inv p st h)

/-- The records returned by extraction satisfy the chain, sign and
first-record properties. -/
theorem extract_transactions_inv (pages : List (List Str)) :
    goodChain (extract_transactions pages) ∧
    goodRecords (extract_transactions pages) ∧
    headZero (extract_transactions pages) := by
  have h0 : walkInv { entries := [], prev := none, buffer := [] } := by
    refine ⟨?_, ?_, ?_, rfl⟩
    · intro i a b ha hb; simp at ha
    · intro r hr; simp at hr
    · intro r hr; simp at hr
  have h1 := foldl_pages_inv pages _ h0
  have h2 := flushIfNeeded_inv _ h1
  exact ⟨h2.1, h2.2.1, h2.2.2.1⟩

/-- Claim C1: in every extracted record sequence, for adjacent records
the deposit minus the withdrawal equals the difference of the signed
closing-balance values (in exact cents, on which the source's 2-decimal
rounding is the identity). -/
theorem extract_balance_delta (pages : List (List Str)) (i : Nat)
    (a b : TransactionRecord)
    (ha : (extract_transactions pages)[i]? = some a)
    (hb : (extract_transactions pages)[i + 1]? = some b) :
    b.deposit - b.withdrawals =
      closingVal b.closing_balance - closingVal a.closing_balance :=
  (extract_transactions_inv pages).1 i a b ha hb

/-- Witness for claim C1 on the concrete two-header document `pagesAB`
(balances 100.00Cr then 250.50Cr). -/
theorem extract_balance_delta_witness :
    (extract_transactions pagesAB)[0]? = some recA ∧
    (extract_transactions pagesAB)[1]? = some recB ∧
    recB.deposit - recB.withdrawals =
      closingVal recB.closing_balance - closingVal recA.closing_balance :=
  ⟨by decide, by decide,
    extract_balance_delta pagesAB 0 recA recB (by decide) (by decide)⟩

/-- Claim C4 (amended): every extracted record has non-negative deposit
and withdrawal and at most one of them non-zero; the first record always
has both zero; and a non-first record has both zero exactly when its
closing balance equals the previous record's (zero balance delta), not
only when no previous balance existed. -/
theorem deposit_withdrawal_shape (pages : List (List Str)) :
    goodRecords (extract_transactions pages) ∧
    headZero (extract_transactions pages) ∧
    (∀ i a b, (extract_transactions pages)[i]? = some a →
      (extract_transactions pages)[i + 1]? = some b →
      ((b.deposit = 0 ∧ b.withdrawals = 0) ↔
        closingVal b.closing_balance = closingVal a.closing_balance)) := by
  obtain ⟨hc, hr, hz⟩ := extract_transactions_inv pages
  refine ⟨hr, hz, ?_⟩
  intro i a b ha hb
  have heq := hc i a b ha hb
  have hmem : b ∈ extract_transactions pages := by
    obtain ⟨hbound, hget⟩ := List.getElem?_eq_some_iff.mp hb
    rw [← hget]
    exact List.getElem_mem hbound
  obtain ⟨h1, h2, h3⟩ := hr b hmem
  constructor
  · rintro ⟨hz1, hz2⟩
    rw [hz1, hz2] at heq
    omega
  · intro hcb
    rw [hcb] at heq
    rcases h3 with h4 | h4 <;> constructor <;> omega
/-- Witness for the amended claim C4 on `pagesEq` (equal balances): the
second record has both sides zero and zero delta. -/
theorem deposit_withdrawal_shape_witness :
    (recB0.deposit = 0 ∧ recB0.withdrawals = 0) ↔
      closingVal recB0.closing_balance = closingVal recA.closing_balance :=
  (deposit_withdrawal_shape pagesEq).2.2 0 recA recB0 (by decide) (by decide)


/-- Trailing-space removal yields a sublist. -/
theorem dropTrailingSp_sublist (l : Str) : (dropTrailingSp l).Sublist l := by
  unfold dropTrailingSp
  have h := (List.dropWhile_sublist (l := l.reverse) isSpaceCh).reverse
  rwa [List.reverse_reverse] at h

/-- A strip-fixed string has no leading whitespace to drop. -/
theorem pyStrip_fix_dropWhile (u : Str) (hu : pyStrip u = u) :
    List.dropWhile isSpaceCh u = u := by
  have h1 := List.dropWhile_sublist (l := u) isSpaceCh
  apply h1.eq_of_length
  have h2 := (dropTrailingSp_sublist (List.dropWhile isSpaceCh u)).length_le
  have h3 := h1.length_le
  have h4 : (pyStrip u).length = u.length := by rw [hu]
  unfold pyStrip at h4
  omega

/-- A strip-fixed string has no trailing whitespace to drop. -/
theorem pyStrip_fix_dropTrailing (u : Str) (hu : pyStrip u = u) :
    dropTrailingSp u = u := by
  have h1 := pyStrip_fix_dropWhile u hu
  have h2 : pyStrip u = dropTrailingSp u := by unfold pyStrip; rw [h1]
  rw [← h2, hu]

/-- A strip-fixed string reversed also has no leading whitespace. -/
theorem pyStrip_fix_rev (u : Str) (hu : pyStrip u = u) :
    List.dropWhile isSpaceCh u.reverse = u.reverse := by
  have h2 := pyStrip_fix_dropTrailing u hu
  unfold dropTrailingSp at h2
  have h3 := congrArg List.reverse h2
  rwa [List.reverse_reverse] at h3

/-- A non-empty `dropWhile` fixed point starts with a failing character. -/
theorem dropWhile_fix_head {p : Char → Bool} {c : Char} {l : Str}
    (h : List.dropWhile p (c :: l) = c :: l) : p c = false := by
  by_contra hc
  rw [Bool.not_eq_false] at hc
  rw [List.dropWhile_cons, if_pos hc] at h
  have h1 := congrArg List.length h
  have h2 := (List.dropWhile_sublist (l := l) p).length_le
  rw [List.length_cons] at h1
  omega

/-- Joining two non-empty strip-fixed strings with a single space is
again strip-fixed. -/
theorem pyStrip_append_sep (u s : Str) (hu : pyStrip u = u) (hune : u ≠ [])
    (hs : pyStrip s = s) (hsne : s ≠ []) :
    pyStrip (u ++ ' ' :: s) = u ++ ' ' :: s := by
  obtain ⟨c, u2, rfl⟩ : ∃ c u2, u = c :: u2 := by
    cases u with
    | nil => exact absurd rfl hune
    | cons c u2 => exact ⟨c, u2, rfl⟩
  have hc : isSpaceCh c = false := dropWhile_fix_head (pyStrip_fix_dropWhile _ hu)
  unfold pyStrip
  have h1 : List.dropWhile isSpaceCh ((c :: u2) ++ ' ' :: s) = (c :: u2) ++ ' ' :: s := by
    rw [List.cons_append, List.dropWhile_cons, if_neg (by simp [hc])]
  rw [h1]
  unfold dropTrailingSp
  have h2 : List.dropWhile isSpaceCh (((c :: u2) ++ ' ' :: s).reverse) =
      ((c :: u2) ++ ' ' :: s).reverse := by
    have hrevs := pyStrip_fix_rev s hs
    obtain ⟨d, s2, hds⟩ : ∃ d s2, s.reverse = d :: s2 := by
      cases hrev : s.reverse with
      | nil => exact absurd (by rwa [List.reverse_eq_nil_iff] at hrev) hsne
      | cons d s2 => exact ⟨d, s2, rfl⟩
    have hd : isSpaceCh d = false := by
      rw [hds] at hrevs
      exact dropWhile_fix_head hrevs
    have hshape : ((c :: u2) ++ ' ' :: s).reverse =
        d :: (s2 ++ ' ' :: (c :: u2).reverse) := by
      rw [List.reverse_append, List.reverse_cons, hds]
      simp [List.append_assoc]
    rw [hshape, List.dropWhile_cons, if_neg (by simp [hd])]
  rw [h2, List.reverse_reverse]

/-- A string is a substring of itself followed by anything. -/
theorem hasSub_refl_append (J t : Str) : hasSub J (J ++ t) = true := by
  unfold hasSub
  exact decide_eq_true ⟨[], t, by simp⟩

/-- Substring containment survives prepending. -/
theorem hasSub_append_left (J x m : Str) (h : hasSub J m = true) :
    hasSub J (x ++ m) = true := by
  unfold hasSub at h ⊢
  obtain ⟨s, t2, hst⟩ := of_decide_eq_true h
  exact decide_eq_true ⟨x ++ s, t2, by rw [← hst]; simp [List.append_assoc]⟩

/-- Substring containment survives one prepended character. -/
theorem hasSub_cons (J : Str) (c : Char) (m : Str) (h : hasSub J m = true) :
    hasSub J (c :: m) = true :=
  hasSub_append_left J [c] m h

/-- Substring containment survives appending. -/
theorem hasSub_append_right (J u v : Str) (h : hasSub J u = true) :
    hasSub J (u ++ v) = true := by
  unfold hasSub at h ⊢
  obtain ⟨s, t2, hst⟩ := of_decide_eq_true h
  exact decide_eq_true ⟨s, t2 ++ v, by rw [← hst]; simp [List.append_assoc]⟩

/-- A list whose optional head is known decomposes as a cons. -/
theorem head?_some_decomp {α : Type} (l : List α) (x : α) (h : l.head? = some x) :
    ∃ xs, l = x :: xs := by
  cases l with
  | nil => simp at h
  | cons a l2 =>
    have ha : a = x := by simpa using h
    exact ⟨l2, by rw [ha]⟩

/-- Appending to the last record either keeps the head record or, for a
singleton list, extends its particulars. -/
theorem appendToLast_head (es : List TransactionRecord) (t : Str)
    (r0 : TransactionRecord) (h : es.head? = some r0) :
    (appendToLast es t).head? = some r0 ∨
    (appendToLast es t).head? =
      some { r0 with particulars := r0.particulars ++ t } := by
  cases es with
  | nil => simp at h
  | cons e es2 =>
    have he : e = r0 := by simpa using h
    subst he
    cases es2 with
    | nil => exact Or.inr rfl
    | cons e2 es3 => exact Or.inl rfl

/-- Flushing the buffer keeps the first record first, and keeps any
substring of its particulars. -/
theorem flush_preserves_headSub (J : Str) (st : WalkState)
    (r0 : TransactionRecord) (rs : List TransactionRecord)
    (hC : st.entries = r0 :: rs) (hsub : hasSub J r0.particulars = true) :
    ∃ r1 rs1, (flushIfNeeded st).entries = r1 :: rs1 ∧
      hasSub J r1.particulars = true := by
  unfold flushIfNeeded
  split
  · have hhead : st.entries.head? = some r0 := by rw [hC]; rfl
    rcases appendToLast_head st.entries (' ' :: pyStrip st.buffer) r0 hhead with h4 | h4
    · obtain ⟨xs, hxs⟩ := head?_some_decomp _ _ h4
      exact ⟨r0, xs, hxs, hsub⟩
    · obtain ⟨xs, hxs⟩ := head?_some_decomp _ _ h4
      exact ⟨_, xs, hxs, hasSub_append_right _ _ _ hsub⟩
  · exact ⟨r0, rs, hC, hsub⟩

/-- One walker step preserves the pre-header tracking invariant. -/
theorem processLine_preheaderInv (J : Str) (hJne : J ≠ [])
    (st : WalkState) (raw : Str) (h : preheaderInv J st) :
    preheaderInv J (processLine st raw) := by
  unfold processLine
  by_cases hn : isNoise (pyStrip raw) = true
  · rw [if_pos hn]; exact h
  · rw [if_neg hn]
    have hne : pyStrip raw ≠ [] := by
      intro h0
      apply hn
      rw [h0]
      decide
    by_cases hh : (matchDateToken (pyStrip raw)).isSome = true
    · rw [if_pos hh]
      dsimp only
      rcases h with ⟨hA, hbuf⟩ | ⟨⟨r0, hB⟩, ⟨t, hbe, hfix⟩⟩ | ⟨r0, rs, hC, hsub⟩
      · have hflush : flushIfNeeded st = st := by
          unfold flushIfNeeded
          rw [if_neg (by rintro ⟨-, hE⟩; exact hE hA)]
        rw [hflush]
        cases hp : parse_transaction_line (pyStrip raw) st.prev with
        | mk o p2 =>
          dsimp only
          cases o with
          | none => exact Or.inl ⟨hA, hbuf⟩
          | some r =>
            refine Or.inr (Or.inl ⟨⟨r, ?_⟩, hbuf⟩)
            rw [hA]
            rfl
      · have hstrip : pyStrip st.buffer = J ++ t := by
          rw [hbe, pyStrip_cons_space, hfix]
        have hflush : flushIfNeeded st =
            { entries := [{ r0 with particulars := r0.particulars ++ ' ' :: (J ++ t) }],
              prev := st.prev, buffer := [] } := by
          unfold flushIfNeeded
          rw [if_pos ⟨by rw [hbe]; exact List.cons_ne_nil _ _,
            by rw [hB]; exact List.cons_ne_nil _ _⟩]
          rw [hB, hstrip]
          rfl
        rw [hflush]
        dsimp only
        cases hp : parse_transaction_line (pyStrip raw) st.prev with
        | mk o p2 =>
          dsimp only
          cases o with
          | none =>
            refine Or.inr (Or.inr ⟨_, [], rfl, ?_⟩)
            exact hasSub_append_left _ _ _ (hasSub_cons _ _ _ (hasSub_refl_append _ t))
          | some r =>
            refine Or.inr (Or.inr ⟨_, [r], rfl, ?_⟩)
            exact hasSub_append_left _ _ _ (hasSub_cons _ _ _ (hasSub_refl_append _ t))
      · obtain ⟨r1, rs1, hfe, hsub1⟩ := flush_preserves_headSub J st r0 rs hC hsub
        cases hp : parse_transaction_line (pyStrip raw) (flushIfNeeded st).prev with
        | mk o p2 =>
          dsimp only
          cases o with
          | none => exact Or.inr (Or.inr ⟨r1, rs1, hfe, hsub1⟩)
          | some r =>
            refine Or.inr (Or.inr ⟨r1, rs1 ++ [r], ?_, hsub1⟩)
            rw [hfe]
            rfl
    · rw [if_neg hh]
      have hsfix : pyStrip (pyStrip raw) = pyStrip raw := pyStrip_idem raw
      rcases h with ⟨hA, ⟨t, hbe, hfix⟩⟩ | ⟨hB, ⟨t, hbe, hfix⟩⟩ | ⟨r0, rs, hC, hsub⟩
      · refine Or.inl ⟨hA, t ++ ' ' :: pyStrip (pyStrip raw), ?_, ?_⟩
        · rw [hbe]
          simp [List.cons_append, List.append_assoc]
        · rw [← List.append_assoc]
          exact pyStrip_append_sep (J ++ t) (pyStrip (pyStrip raw)) hfix
            (by intro h0; exact hJne (List.append_eq_nil.mp h0).1)
            (pyStrip_idem (pyStrip raw))
            (by rw [hsfix]; exact hne)
      · refine Or.inr (Or.inl ⟨hB, t ++ ' ' :: pyStrip (pyStrip raw), ?_, ?_⟩)
        · rw [hbe]
          simp [List.cons_append, List.append_assoc]
        · rw [← List.append_assoc]
          exact pyStrip_append_sep (J ++ t) (pyStrip (pyStrip raw)) hfix
            (by intro h0; exact hJne (List.append_eq_nil.mp h0).1)
            (pyStrip_idem (pyStrip raw))
            (by rw [hsfix]; exact hne)
      · exact Or.inr (Or.inr ⟨r0, rs, hC, hsub⟩)

/-- The pre-header invariant is preserved along a page's lines. -/
theorem foldl_preheaderInv (J : Str) (hJne : J ≠ [])
    (lines : List Str) : ∀ st, preheaderInv J st →
    preheaderInv J (lines.foldl processLine st) := by
  induction lines with
  | nil => intro st h; exact h
  | cons l ls ih => intro st h; exact ih _ (processLine_preheaderInv J hJne st l h)

/-- The pre-header invariant is preserved across all pages. -/
theorem foldl_pages_preheaderInv (J : Str) (hJne : J ≠ [])
    (pages : List (List Str)) : ∀ st, preheaderInv J st →
    preheaderInv J (pages.foldl (fun s lines => lines.foldl processLine s) st) := by
  induction pages with
  | nil => intro st h; exact h
  | cons p ps ih => intro st h; exact ih _ (foldl_preheaderInv J hJne p st h)

/-- The walker's buffer becomes empty only when it was already empty or
when it was flushed onto the last existing record. -/
theorem buffer_cleared_only_by_flush (st : WalkState) (raw : Str)
    (h0 : (processLine st raw).buffer = []) :
    st.buffer = [] ∨ (st.entries ≠ [] ∧ ∃ es2,
      (processLine st raw).entries =
        appendToLast st.entries (' ' :: pyStrip st.buffer) ++ es2) := by
  by_cases hn : isNoise (pyStrip raw) = true
  · left
    have heq : processLine st raw = st := by
      unfold processLine; rw [if_pos hn]
    rw [heq] at h0
    exact h0
  · by_cases hh : (matchDateToken (pyStrip raw)).isSome = true
    · by_cases hcond : st.buffer ≠ [] ∧ st.entries ≠ []
      · right
        refine ⟨hcond.2, ?_⟩
        have hflush : flushIfNeeded st =
            { entries := appendToLast st.entries (' ' :: pyStrip st.buffer),
              prev := st.prev, buffer := [] } := by
          unfold flushIfNeeded; rw [if_pos hcond]
        unfold processLine
        rw [if_neg hn, if_pos hh]
        dsimp only
        rw [hflush]
        dsimp only
        cases hp : parse_transaction_line (pyStrip raw) st.prev with
        | mk o p2 =>
          dsimp only
          cases o with
          | none => exact ⟨[], by rw [List.append_nil]⟩
          | some r => exact ⟨[r], rfl⟩
      · left
        have hflush : flushIfNeeded st = st := by
          unfold flushIfNeeded; rw [if_neg hcond]
        unfold processLine at h0
        rw [if_neg hn, if_pos hh] at h0
        dsimp only at h0
        rw [hflush] at h0
        cases hp : parse_transaction_line (pyStrip raw) st.prev with
        | mk o p2 =>
          rw [hp] at h0
          cases o with
          | none => dsimp only at h0; exact h0
          | some r => dsimp only at h0; exact h0
    · exfalso
      have heq : (processLine st raw).buffer = st.buffer ++ ' ' :: pyStrip (pyStrip raw) := by
        unfold processLine
        rw [if_neg hn, if_neg hh]
      rw [heq] at h0
      exact absurd h0 (by simp)

/-- Pre-header text reaches the first record in every document: if the
document's first line is a non-noise, non-header continuation line,
then, whatever the rest of the document is, either extraction yields no
records (only then is the text lost) or the first extracted record's
Particulars contains the line's stripped text. -/
theorem preheader_reaches_first_record (junk : Str) (restLines : List Str)
    (restPages : List (List Str))
    (h2 : isNoise (pyStrip junk) = false)
    (h3 : matchDateToken (pyStrip junk) = none) :
    extract_transactions ((junk :: restLines) :: restPages) = [] ∨
    ∃ r0 es, extract_transactions ((junk :: restLines) :: restPages) = r0 :: es ∧
      hasSub (pyStrip junk) r0.particulars = true := by
  have hJfix : pyStrip (pyStrip junk) = pyStrip junk := pyStrip_idem junk
  have hJne : pyStrip junk ≠ [] := by
    intro h0
    rw [h0] at h2
    exact absurd h2 (by decide)
  have hstep1 : processLine { entries := [], prev := none, buffer := [] } junk =
      { entries := [], prev := none, buffer := ' ' :: pyStrip junk } := by
    simp [processLine, h2, h3, pyStrip_idem]
  have hInv1 : preheaderInv (pyStrip junk)
      { entries := [], prev := none, buffer := ' ' :: pyStrip junk } := by
    left
    refine ⟨rfl, [], ?_, ?_⟩
    · rw [List.append_nil]
    · rw [List.append_nil]; exact hJfix
  have hInv2 := foldl_preheaderInv (pyStrip junk) hJne restLines _ hInv1
  have hInv3 := foldl_pages_preheaderInv (pyStrip junk) hJne restPages _ hInv2
  have hext : extract_transactions ((junk :: restLines) :: restPages) =
      (flushIfNeeded (restPages.foldl (fun s lines => lines.foldl processLine s)
        (restLines.foldl processLine
          (processLine { entries := [], prev := none, buffer := [] } junk)))).entries := rfl
  rw [hext, hstep1]
  rcases hInv3 with ⟨hA, _⟩ | ⟨⟨r0, hB⟩, ⟨t, hbe, hfix⟩⟩ | ⟨r0, rs, hC, hsub⟩
  · left
    unfold flushIfNeeded
    rw [if_neg (by rintro ⟨-, hE⟩; exact hE hA)]
    exact hA
  · right
    refine ⟨{ r0 with particulars := r0.particulars ++ ' ' :: (pyStrip junk ++ t) }, [],
      ?_, ?_⟩
    · unfold flushIfNeeded
      rw [if_pos ⟨by rw [hbe]; exact List.cons_ne_nil _ _,
        by rw [hB]; exact List.cons_ne_nil _ _⟩]
      dsimp only
      rw [hB, hbe, pyStrip_cons_space, hfix]
      rfl
    · exact hasSub_append_left _ _ _ (hasSub_cons _ _ _ (hasSub_refl_append _ t))
  · right
    obtain ⟨r1, rs1, hfe, hsub1⟩ :=
      flush_preserves_headSub (pyStrip junk) _ r0 rs hC hsub
    exact ⟨r1, rs1, hfe, hsub1⟩

/-- Claim C3 (amended): continuation lines before the first header are
not silently dropped. The walker's buffer is cleared only by flushing
it onto the last existing record, and in every document beginning with
a non-noise, non-header line, that line's stripped text appears in the
FIRST record's Particulars whenever extraction yields any record — via
the flush at the next header once a record exists, or the end-of-document
flush; the text is lost only when extraction produces no records. -/
theorem preheader_flushed_to_first_record :
    (∀ (st : WalkState) (raw : Str), (processLine st raw).buffer = [] →
      st.buffer = [] ∨ (st.entries ≠ [] ∧ ∃ es2,
        (processLine st raw).entries =
          appendToLast st.entries (' ' :: pyStrip st.buffer) ++ es2)) ∧
    (∀ (junk : Str) (restLines : List Str) (restPages : List (List Str)),
      isNoise (pyStrip junk) = false →
      matchDateToken (pyStrip junk) = none →
      extract_transactions ((junk :: restLines) :: restPages) = [] ∨
      ∃ r0 es, extract_transactions ((junk :: restLines) :: restPages) = r0 :: es ∧
        hasSub (pyStrip junk) r0.particulars = true) :=
  ⟨buffer_cleared_only_by_flush, preheader_reaches_first_record⟩

/-- Witness for the amended claim C3 at the concrete document whose
first line is `JUNK` followed by one header line. -/
theorem preheader_flushed_to_first_record_witness :
    extract_transactions ((junkLine :: [hdrPay]) :: []) = [] ∨
    ∃ r0 es, extract_transactions ((junkLine :: [hdrPay]) :: []) = r0 :: es ∧
      hasSub (pyStrip junkLine) r0.particulars = true :=
  preheader_flushed_to_first_record.2 junkLine [hdrPay] [] (by decide) (by decide)
